import Mathlib

/-!
Shallow embedding of the forecast core of the cmu-delphi/flu-contest
repository, together with proofs about its target extraction, distribution
blending and smoothing, sanity checking, and forecast assembly.

Sources embedded here:
* `src/forecasters/fc_abstract.py` (`Targets`, `Forecaster.Utils`)
* `src/forecasters/fc_hybrid.py` (`Hybrid._forecast`)
* `src/covid/targets.py` (`Targets`)
* `src/epicast/fc_epicast.py` (`Epicast.fit_distribution`)
* `src/utils/forecast_location.py` (`ForecastLocation`)
* `src/utils/forecast.py` (`Forecast.sanity_check`)

Real numbers in the Python source are embedded as `ℚ` (ideal arithmetic),
except where a square root or an abstract distribution function forces `ℝ`.
-/

/-! ### Python rounding

`round(x, 1)` in Python 3 rounds to one decimal place with round-half-to-even
tie breaking.  `py_round_int` is round-half-to-even to an integer. -/

def py_round_int (q : ℚ) : ℤ :=
  let f : ℤ := ⌊q⌋
  if q - f < 1/2 then f
  else if 1/2 < q - f then f + 1
  else if f % 2 = 0 then f else f + 1

/-- Python `round(q, 1)`. -/
def round1 (q : ℚ) : ℚ := (py_round_int (q * 10) : ℚ) / 10

/-! ### `statistics.median_low`

Python's `median_low(data)` sorts the data and returns the lower of the two
middle elements (the exact middle element when the length is odd); on the
sorted list this is the element at index `(len - 1) // 2`.  It raises on an
empty list, which is embedded as `none`. -/

def median_low {α : Type} [LinearOrder α] (l : List α) : Option α :=
  (l.insertionSort (· ≤ ·))[(l.length - 1) / 2]?

/-! ### `fc_abstract.py`, class `Targets` -/

/-- Loop body of `Targets.get_onset`: walks the trajectory keeping a count of
consecutive weeks whose 1-decimal-rounded value is at or above the baseline,
returning `i - 2` as soon as the count reaches 3. -/
def get_onset_loop (baseline : ℚ) : List ℚ → ℕ → ℕ → Option ℕ
  | [], _, _ => none
  | w :: rest, i, weeksAbove =>
    if baseline ≤ round1 w then
      if 3 ≤ weeksAbove + 1 then some (i - 2)
      else get_onset_loop baseline rest (i + 1) (weeksAbove + 1)
    else get_onset_loop baseline rest (i + 1) 0

/-- `Targets.get_onset(wili, baseline)`: index of season onset; `None` when
`baseline` is `None` or no three consecutive rounded values reach it. -/
def get_onset (wili : List ℚ) (baseline : Option ℚ) : Option ℕ :=
  match baseline with
  | none => none
  | some b => get_onset_loop b wili 0 0

/-- `Targets.get_peak(wili)`: maximum wILI value of the whole trajectory
(Python `max(wili)`, which raises on an empty list, embedded as `none`). -/
def get_peak (wili : List ℚ) : Option ℚ := wili.max?

/-- The week list of `Targets.get_peakweek`:
`[i for (i, w) in enumerate(wili) if round(w, 1) == peak]`, embedded as a
recursion carrying the enumeration index. -/
def matching_weeks_from (pk : ℚ) : List ℚ → ℕ → List ℕ
  | [], _ => []
  | w :: rest, i =>
    (if round1 w = pk then [i] else []) ++ matching_weeks_from pk rest (i + 1)

/-- `Targets.get_peakweek(wili, baseline, rule_season)`: median-low index of
the (1-decimal-rounded) peak; for rule seasons before 2016 it is `None`
whenever the onset is `None`. -/
def get_peakweek (wili : List ℚ) (baseline : Option ℚ) (ruleSeason : Option ℤ) :
    Option ℕ :=
  if (match ruleSeason with
      | some r => decide (r < 2016) && (get_onset wili baseline).isNone
      | none => false) then
    none
  else
    match get_peak wili with
    | none => none
    | some m => median_low (matching_weeks_from (round1 m) wili 0)

/-- `Targets.get_lookahead(wili, current_index, ahead)`: the value at index
`min(current_index + ahead, len(wili) - 1)`. -/
def get_lookahead (wili : List ℚ) (currentIndex ahead : ℕ) : Option ℚ :=
  wili[min (currentIndex + ahead) (wili.length - 1)]?

/-! ### `covid/targets.py`, class `Targets` -/

/-- `Targets.get_peak_wili(series)`: `np.max(series[:26])` (only the first 26
weeks are considered; `none` when the prefix is empty). -/
def get_peak_wili (series : List ℚ) : Option ℚ := (series.take 26).max?

/-- `Targets.get_n_week_wili(series, current_week, n)`: `series[current_week + n]`
with no clamping; an out-of-bounds index is embedded as `none` (Python raises
an `IndexError`). -/
def get_n_week_wili (series : List ℚ) (currentWeek n : ℕ) : Option ℚ :=
  series[currentWeek + n]?

/-! ### Spec-side restatements of the target claims -/

/-- Spec wording for onset: the three values starting at `s`, each rounded to
one decimal place, all reach the baseline. -/
def onset_window (wili : List ℚ) (b : ℚ) (s : ℕ) : Prop :=
  s + 2 < wili.length ∧ ∀ k < 3, b ≤ round1 (wili.getD (s + k) 0)

instance (wili : List ℚ) (b : ℚ) (s : ℕ) : Decidable (onset_window wili b s) := by
  unfold onset_window; infer_instance

/-- Spec wording for the peak-week candidate set: all indices of the
trajectory whose 1-decimal-rounded value equals the rounded peak value. -/
def peak_index_set (wili : List ℚ) (pk : ℚ) : List ℕ :=
  (List.range wili.length).filter (fun i => decide (round1 (wili.getD i 0) = pk))

/-! ### `fc_abstract.py`, `Forecaster.Utils.blend` -/

/-- `Utils.blend(dist, weight)`: `uniform * weight + dist * (1 - weight)`,
where `uniform` has `1 / len(dist)` in every entry. -/
def blend (dist : List ℚ) (weight : ℚ) : List ℚ :=
  dist.map (fun x => weight * (1 / (dist.length : ℚ)) + x * (1 - weight))

/-! ### `fc_abstract.py`, `Forecaster.Utils.smooth`

`smooth` builds a Gaussian kernel of per-offset weights
`prob(i) = cdf(i + 0.5) - cdf(i - 0.5)` for offsets `-num .. num` (the source
enlarges `num` until `prob(num) <= 1e-5`; the truncation point `num` and the
normal CDF are kept as parameters here, since the CDF is transcendental),
convolves the curve with it, and folds the mass that spills past either end
of the array back into the first and last bins. -/

/-- Per-offset kernel weight `prob(i) = cdf(i + 0.5) - cdf(i - 0.5)`. -/
def kernel_probability (cdf : ℚ → ℚ) (i : ℤ) : ℚ :=
  cdf ((i : ℚ) + 1/2) - cdf ((i : ℚ) - 1/2)

/-- The kernel array `[prob(i - window // 2) for i in range(window)]` with
`window = 2 * num + 1`. -/
def kernel (cdf : ℚ → ℚ) (num : ℕ) : List ℚ :=
  (List.range (2 * num + 1)).map
    (fun i : ℕ => kernel_probability cdf ((i : ℤ) - (num : ℤ)))

/-- Pointwise addition of two lists, the shorter padded with zeros
(helper for full convolution). -/
def add_padded : List ℚ → List ℚ → List ℚ
  | [], ys => ys
  | x :: xs, [] => x :: xs
  | x :: xs, y :: ys => (x + y) :: add_padded xs ys

/-- `np.convolve(xs, ys, mode = full)`. -/
def convolve : List ℚ → List ℚ → List ℚ
  | [], _ => []
  | x :: xs, ys => add_padded (ys.map (fun y => x * y)) (0 :: convolve xs ys)

/-- The boundary folding of `smooth`: with `i = window // 2 = num` and
`j = -(i + 1)`, the source sets `temp[i] = sum(temp[:i + 1])` and then
`temp[j] = sum(temp[j:])` on the updated array. -/
def fold_boundaries (t : List ℚ) (num : ℕ) : List ℚ :=
  (t.set num ((t.take (num + 1)).sum)).set (t.length - (num + 1))
    (((t.set num ((t.take (num + 1)).sum)).drop (t.length - (num + 1))).sum)

/-- The final slice `temp[i : j + 1]` of `smooth` (an in-place update leaves
the array length unchanged, so `len(temp)` is written `t.length`). -/
def smooth_core (t : List ℚ) (num : ℕ) : List ℚ :=
  ((fold_boundaries t num).drop num).take (t.length - 2 * num)

/-- `Utils.smooth(curve, bandwidth)`, with the normal CDF of the bandwidth
and the kernel truncation radius `num` abstracted as parameters. -/
def smooth (cdf : ℚ → ℚ) (num : ℕ) (curve : List ℚ) : List ℚ :=
  smooth_core (convolve curve (kernel cdf num)) num

/-- A concrete strictly increasing function with range inside `(0, 1)`,
standing in for a normal CDF in concrete instantiations. -/
def surrogate_cdf (x : ℚ) : ℚ := 1/2 + x / (2 * (1 + |x|))

/-! ### `epicast/fc_epicast.py`, `Epicast.fit_distribution` -/

/-- The filtered value list: `values = [v for v in values if v is not None]`,
replaced by `[0]` when empty. -/
def fit_values (values : List (Option ℚ)) : List ℚ :=
  let v := values.filterMap id
  if v = [] then [0] else v

/-- `np.median`: middle element of the sorted list for odd length, average of
the two middle elements for even length. -/
def np_median (l : List ℚ) : ℚ :=
  let s := l.insertionSort (· ≤ ·)
  if l.length % 2 = 1 then s.getD (l.length / 2) 0
  else (s.getD (l.length / 2 - 1) 0 + s.getD (l.length / 2) 0) / 2

/-- `mu = np.median(values)` over the filtered values. -/
def fit_mu (values : List (Option ℚ)) : ℚ := np_median (fit_values values)

/-- `np.std(l, ddof = 1) ** 2`: the sample variance. -/
def sample_variance (l : List ℚ) : ℚ :=
  (l.map (fun x => (x - l.sum / (l.length : ℚ)) ^ 2)).sum / ((l.length : ℚ) - 1)

/-- The variance under the square root in `sigma`: `0` when a single value
remains, the sample variance otherwise. -/
def fit_variance (values : List (Option ℚ)) : ℚ :=
  let v := fit_values values
  if v.length = 1 then 0 else sample_variance v

/-- `sigma = max(np.std(values, ddof=1), 1e-3)`. -/
noncomputable def fit_sigma (values : List (Option ℚ)) : ℝ :=
  max (Real.sqrt ((fit_variance values : ℚ) : ℝ)) (1/1000)

/-- `df = max(1, num_users - 1)`. -/
def fit_df (numUsers : ℤ) : ℤ := max 1 (numUsers - 1)

/-- The raw bin masses: `cdf(b) - cdf(a)` per bin, the final bin being
`[a, inf)` when `unbounded` (the CDF tends to 1 at infinity). -/
noncomputable def fit_bins (cdf : ℝ → ℝ) (numBins : ℕ) (binSize firstValue : ℝ)
    (unbounded : Bool) : List ℝ :=
  (List.range numBins).map (fun i =>
    let a := firstValue + (i : ℝ) * binSize
    if unbounded && decide (i = numBins - 1) then 1 - cdf a
    else cdf (a + binSize) - cdf a)

/-- `mass = sum(dist); if mass > 0: dist /= mass`. -/
noncomputable def fit_normalize (dist : List ℝ) : List ℝ :=
  if 0 < dist.sum then dist.map (fun x => x / dist.sum) else dist

/-- `Epicast.fit_distribution`, with the scipy Student-t CDF family abstracted
as `tcdf df mu sigma`. -/
noncomputable def fit_distribution (tcdf : ℤ → ℚ → ℝ → ℝ → ℝ)
    (values : List (Option ℚ)) (numBins : ℕ) (binSize firstValue : ℝ)
    (unbounded : Bool) (numUsers : ℤ) : List ℝ :=
  fit_normalize
    (fit_bins (tcdf (fit_df numUsers) (fit_mu values) (fit_sigma values))
      numBins binSize firstValue unbounded)

/-! ### `utils/forecast_location.py` and `utils/forecast.py` -/

/-- `ForecastLocation.approx_one(x)`: `abs(1 - x) < 1e-5`. -/
def approx_one (x : ℚ) : Bool := |1 - x| < 1 / 100000

/-- The distribution data held by a `ForecastLocation`: one distribution per
target, plus, for region locations only, the onset distribution together with
its scalar probability of no onset. -/
structure ForecastLocationData where
  x1 : List ℚ
  x2 : List ℚ
  x3 : List ℚ
  x4 : List ℚ
  peakweek : List ℚ
  peak : List ℚ
  onset : Option (List ℚ × ℚ)

/-- The distributions examined by `ForecastLocation.sanity_check`, in source
order: x1..x4, peakweek, peak, and (for region locations) the onset
distribution with the none probability appended. -/
def checked_dists (fl : ForecastLocationData) : List (List ℚ) :=
  [fl.x1, fl.x2, fl.x3, fl.x4, fl.peakweek, fl.peak] ++
    (match fl.onset with
     | some dn => [dn.1 ++ [dn.2]]
     | none => [])

/-- One distribution passes `sanity_check` when its sum is within `1e-5` of 1
and `min(dist) > 0` and `max(dist) < 1` (Python `min`/`max` raise on an empty
list, embedded as failure). -/
def dist_ok (d : List ℚ) : Bool :=
  approx_one d.sum &&
    (match d.min?, d.max? with
     | some mn, some mx => decide (0 < mn) && decide (mx < 1)
     | _, _ => false)

/-- `ForecastLocation.sanity_check` raises unless every checked distribution
passes; `true` means no exception. -/
def location_sanity_check (fl : ForecastLocationData) : Bool :=
  (checked_dists fl).all dist_ok

/-- `Forecast.sanity_check`: re-raises the first location-level failure;
`true` means the whole bundle passes. -/
def forecast_sanity_check (fls : List ForecastLocationData) : Bool :=
  fls.all location_sanity_check

/-- Spec wording of a sanity violation: the sum differs from 1 by `1e-5` or
more, or some entry is `<= 0` or `>= 1`. -/
def dist_violation (d : List ℚ) : Prop :=
  1 / 100000 ≤ |1 - d.sum| ∨ ∃ x ∈ d, x ≤ 0 ∨ 1 ≤ x

/-- A hand-built location whose distributions all sum to 1 with every bin
inside `(0, 1)`. -/
def good_location : ForecastLocationData :=
  ⟨[1/2, 1/2], [1/2, 1/2], [1/2, 1/2], [1/2, 1/2], [1/2, 1/2], [1/2, 1/2],
    some ([1/4, 1/4], 1/2)⟩

/-- The same location except that one `x1` bin is exactly 0 (the floor is
violated even though the bins still sum to 1). -/
def bad_location : ForecastLocationData :=
  { good_location with x1 := [0, 1/2, 1/2] }

/-- `ForecastLocation._set_week_target` (through `_check_week_values`): checks
the distribution length, the total mass, non-negativity, and that the point
prediction reduced modulo 100 lies in `[1, 53)`; on success it stores the
distribution and the reduced point `point % 100`. -/
def set_week_target (seasonLength : ℕ) (dist : List ℚ) (noneOpt : Option ℚ)
    (point : ℤ) : Except String (List ℚ × ℤ) :=
  if dist.length ≠ seasonLength then .error "distribution length is wrong"
  else if approx_one (dist.sum + noneOpt.getD 0) = false then
    .error "distribution including none must sum to 1"
  else if ((dist ++ [noneOpt.getD 0, (point : ℚ)]).any
      (fun x => decide (x < 0))) = true then
    .error "value is negative"
  else if point % 100 < 1 ∨ 53 ≤ point % 100 then
    .error "weekly point prediction not in [1, 53)"
  else .ok (dist, point % 100)

/-! ### `fc_hybrid.py`, `Hybrid._forecast` -/

/-- `delphi.utils.epiweek.join_epiweek(year, week) = year * 100 + week`
(external dependency, not part of this repository). -/
def join_epiweek (year week : ℤ) : ℤ := year * 100 + week

/-- Modelled from the spec: `EpiweekCalendar.delta(ew1, ew2)` is the signed
number of weeks from `ew1` to `ew2` (`delphi.utils.epiweek.delta_epiweeks`,
an external dependency that is not part of this repository); for two epiweeks
of the same calendar year it is the difference of the week parts, which is
the only case exercised below. -/
def delta_epiweeks_same_year (ew1 ew2 : ℤ) : ℤ := ew2 % 100 - ew1 % 100

/-- `Hybrid._forecast(region, epiweek)`: the body first overwrites its
`epiweek` argument with the constant `201841`, then splices
`P[j % len(P)][:i]` with `F[j % len(F)][i:]` for `j` in
`range(max(len(P), len(F)))`, where
`i = delta_epiweeks(join_epiweek(test_season, 40), epiweek)` (a non-negative
count here, taken with `toNat`).  The epiweek parameter is kept to show that
the result never depends on it. -/
def hybrid_forecast (delta : ℤ → ℤ → ℤ) (testSeason : ℤ)
    (past future : List (List ℚ)) (_epiweek : ℤ) : List (List ℚ) :=
  let ew : ℤ := 201841
  let i : ℕ := (delta (join_epiweek testSeason 40) ew).toNat
  (List.range (max past.length future.length)).map (fun j =>
    (past.getD (j % past.length) []).take i ++
      (future.getD (j % future.length) []).drop i)

/-! ## Helper lemmas -/

theorem blend_entry_ge (dist : List ℚ) (w : ℚ) (hw1 : w ≤ 1)
    (hnn : ∀ x ∈ dist, 0 ≤ x) :
    ∀ y ∈ blend dist w, w * (1 / (dist.length : ℚ)) ≤ y := by
  intro y hy
  simp only [blend, List.mem_map] at hy
  obtain ⟨x, hx, rfl⟩ := hy
  have h0 : 0 ≤ x := hnn x hx
  nlinarith

/-! ## Claim theorems -/

/-- C2: every entry of `blend(dist, weight)` is at least
`weight * (1 / len(dist))`; with the uniform weights used by
`Forecaster.forecast` — `min_week_prob * (num_week_bins + 1)` on a week
distribution that includes the none bucket as an extra bin, and
`min_wili_prob * num_wili_bins` on a wILI distribution — every blended bin
probability is at least the configured per-bin floor. -/
theorem blend_uniform_floor :
    (∀ (dist : List ℚ) (w : ℚ), dist ≠ [] → 0 < w → w < 1 →
        (∀ x ∈ dist, 0 ≤ x) →
        ∀ y ∈ blend dist w, w * (1 / (dist.length : ℚ)) ≤ y)
    ∧ (∀ (minWeekProb : ℚ) (n : ℕ) (dist : List ℚ), dist.length = n + 1 →
        0 < minWeekProb → minWeekProb * ((n : ℚ) + 1) < 1 →
        (∀ x ∈ dist, 0 ≤ x) →
        ∀ y ∈ blend dist (minWeekProb * ((n : ℚ) + 1)), minWeekProb ≤ y)
    ∧ (∀ (minWiliProb : ℚ) (n : ℕ) (dist : List ℚ), 0 < n → dist.length = n →
        0 < minWiliProb → minWiliProb * (n : ℚ) < 1 →
        (∀ x ∈ dist, 0 ≤ x) →
        ∀ y ∈ blend dist (minWiliProb * (n : ℚ)), minWiliProb ≤ y) := by
  refine ⟨?_, ?_, ?_⟩
  · intro dist w _ _ hw1 hnn y hy
    exact blend_entry_ge dist w (le_of_lt hw1) hnn y hy
  · intro mp n dist hlen hmp hw hnn y hy
    have h := blend_entry_ge dist (mp * ((n : ℚ) + 1)) (le_of_lt hw) hnn y hy
    have hcast : (dist.length : ℚ) = (n : ℚ) + 1 := by rw [hlen]; push_cast; ring
    rw [hcast] at h
    have hne : (n : ℚ) + 1 ≠ 0 := by positivity
    calc mp = mp * ((n : ℚ) + 1) * (1 / ((n : ℚ) + 1)) := by field_simp
      _ ≤ y := h
  · intro mp n dist hn hlen hmp hw hnn y hy
    have h := blend_entry_ge dist (mp * (n : ℚ)) (le_of_lt hw) hnn y hy
    have hcast : (dist.length : ℚ) = (n : ℚ) := by rw [hlen]
    rw [hcast] at h
    have hne : (n : ℚ) ≠ 0 := by positivity
    calc mp = mp * (n : ℚ) * (1 / (n : ℚ)) := by field_simp
      _ ≤ y := h

theorem blend_uniform_floor_witness :
    ((1 : ℚ)/5 * (1 / (([(1 : ℚ)/2, 1/2]).length : ℚ)) ≤ 1/2)
    ∧ ((1 : ℚ)/100 ≤ 1/2)
    ∧ ((1 : ℚ)/100 ≤ 1/2) :=
  ⟨blend_uniform_floor.1 [1/2, 1/2] (1/5) (by simp) (by norm_num) (by norm_num)
      (by norm_num) (1/2) (by norm_num [blend]),
    blend_uniform_floor.2.1 (1/100) 1 [1/2, 1/2] (by simp) (by norm_num)
      (by norm_num) (by norm_num) (1/2) (by norm_num [blend]),
    blend_uniform_floor.2.2 (1/100) 2 [1/2, 1/2] (by norm_num) (by simp)
      (by norm_num) (by norm_num) (by norm_num) (1/2) (by norm_num [blend])⟩

/-- C9 (amended): `Targets.get_lookahead` of `fc_abstract.py` returns the
value at index `min(current_index + ahead, len(wili) - 1)` and never goes out
of bounds on a non-empty trajectory; the covid-era `Targets.get_n_week_wili`
of `covid/targets.py`, by contrast, indexes `series[current_week + n]`
directly and is only safe when that index is in range. -/
theorem lookahead_clamped :
    (∀ (wili : List ℚ) (c k : ℕ), wili ≠ [] →
        get_lookahead wili c k =
          some (wili.getD (min (c + k) (wili.length - 1)) 0))
    ∧ (∀ (series : List ℚ) (c n : ℕ), c + n < series.length →
        get_n_week_wili series c n = some (series.getD (c + n) 0)) := by
  constructor
  · intro wili c k hne
    have hpos : 0 < wili.length := List.length_pos.mpr hne
    have hlt : min (c + k) (wili.length - 1) < wili.length := by omega
    rw [get_lookahead, List.getElem?_eq_getElem hlt, List.getD_eq_getElem _ _ hlt]
  · intro series c n hlt
    rw [get_n_week_wili, List.getElem?_eq_getElem hlt, List.getD_eq_getElem _ _ hlt]

theorem lookahead_clamped_witness :
    (get_lookahead [(2 : ℚ), 3] 0 5 = some ([(2 : ℚ), 3].getD (min (0 + 5) ([(2 : ℚ), 3].length - 1)) 0))
    ∧ (get_n_week_wili [(2 : ℚ), 3] 0 1 = some ([(2 : ℚ), 3].getD (0 + 1) 0)) :=
  ⟨lookahead_clamped.1 [(2 : ℚ), 3] 0 5 (by simp),
    lookahead_clamped.2 [(2 : ℚ), 3] 0 1 (by simp)⟩

/-- C9 counterexample: `get_n_week_wili([5], 0, 1)` performs an out-of-bounds
access (an `IndexError`) instead of returning the clamped value `5`. -/
theorem lookahead_clamped_counterexample :
    get_n_week_wili [(5 : ℚ)] 0 1 = none
    ∧ get_n_week_wili [(5 : ℚ)] 0 1
        ≠ some ([(5 : ℚ)].getD (min (0 + 1) ([(5 : ℚ)].length - 1)) 0) := by
  constructor <;> simp [get_n_week_wili]

/-- C10: `_set_week_target` stores the week-of-year `point % 100` and raises
unless `1 <= point % 100 < 53`; in particular a point estimate whose
week-of-year is 53 is always rejected, and when every other check passes the
call succeeds exactly when `1 <= point % 100 < 53`. -/
theorem week_point_modulo :
    (∀ (sl : ℕ) (dist : List ℚ) (noneOpt : Option ℚ) (point : ℤ)
        (r : List ℚ × ℤ),
        set_week_target sl dist noneOpt point = .ok r →
        r.2 = point % 100 ∧ 1 ≤ point % 100 ∧ point % 100 < 53)
    ∧ (∀ (sl : ℕ) (dist : List ℚ) (noneOpt : Option ℚ) (point : ℤ),
        point % 100 = 53 →
        ∃ e, set_week_target sl dist noneOpt point = .error e)
    ∧ (∀ (sl : ℕ) (dist : List ℚ) (noneOpt : Option ℚ) (point : ℤ),
        dist.length = sl → approx_one (dist.sum + noneOpt.getD 0) = true →
        (∀ x ∈ dist, 0 ≤ x) → 0 ≤ noneOpt.getD 0 → 0 ≤ point →
        ((∃ r, set_week_target sl dist noneOpt point = .ok r) ↔
          1 ≤ point % 100 ∧ point % 100 < 53)) := by
  refine ⟨?_, ?_, ?_⟩
  · intro sl dist noneOpt point r h
    rw [set_week_target] at h
    by_cases h1 : dist.length ≠ sl
    · rw [if_pos h1] at h; exact absurd h (by simp)
    rw [if_neg h1] at h
    by_cases h2 : approx_one (dist.sum + noneOpt.getD 0) = false
    · rw [if_pos h2] at h; exact absurd h (by simp)
    rw [if_neg h2] at h
    by_cases h3 : ((dist ++ [noneOpt.getD 0, (point : ℚ)]).any
        (fun x => decide (x < 0))) = true
    · rw [if_pos h3] at h; exact absurd h (by simp)
    rw [if_neg h3] at h
    by_cases h4 : point % 100 < 1 ∨ 53 ≤ point % 100
    · rw [if_pos h4] at h; exact absurd h (by simp)
    rw [if_neg h4] at h
    injection h with h'
    subst h'
    exact ⟨rfl, by omega, by omega⟩
  · intro sl dist noneOpt point hp
    rw [set_week_target]
    by_cases h1 : dist.length ≠ sl
    · rw [if_pos h1]; exact ⟨_, rfl⟩
    rw [if_neg h1]
    by_cases h2 : approx_one (dist.sum + noneOpt.getD 0) = false
    · rw [if_pos h2]; exact ⟨_, rfl⟩
    rw [if_neg h2]
    by_cases h3 : ((dist ++ [noneOpt.getD 0, (point : ℚ)]).any
        (fun x => decide (x < 0))) = true
    · rw [if_pos h3]; exact ⟨_, rfl⟩
    rw [if_neg h3]
    rw [if_pos (by omega : point % 100 < 1 ∨ 53 ≤ point % 100)]
    exact ⟨_, rfl⟩
  · intro sl dist noneOpt point hlen happ hnn hnone hpt
    rw [set_week_target]
    have h1 : ¬ dist.length ≠ sl := by simp [hlen]
    rw [if_neg h1]
    have h2 : ¬ approx_one (dist.sum + noneOpt.getD 0) = false := by
      simp [happ]
    rw [if_neg h2]
    have h3 : ((dist ++ [noneOpt.getD 0, (point : ℚ)]).any
        (fun x => decide (x < 0))) = false := by
      rw [List.any_eq_false]
      intro x hx
      simp only [List.mem_append, List.mem_cons, List.mem_singleton] at hx
      rcases hx with hx | hx | hx | hx
      · simpa using not_lt.mpr (hnn x hx)
      · subst hx; simpa using not_lt.mpr hnone
      · subst hx
        simpa using not_lt.mpr (by exact_mod_cast hpt : (0 : ℚ) ≤ (point : ℚ))
      · simp at hx
    rw [if_neg (by simp [h3])]
    by_cases h4 : point % 100 < 1 ∨ 53 ≤ point % 100
    · rw [if_pos h4]
      constructor
      · rintro ⟨r, hr⟩; exact absurd hr (by simp)
      · intro hb; omega
    · rw [if_neg h4]
      constructor
      · intro _; omega
      · intro _; exact ⟨_, rfl⟩

theorem week_point_modulo_witness :
    (((201805 : ℤ) % 100 = 53 → False) ∧ 1 ≤ (201805 : ℤ) % 100
      ∧ (201805 : ℤ) % 100 < 53)
    ∧ (∃ e, set_week_target 2 [(1 : ℚ)/2, 1/2] none 201853 = .error e)
    ∧ ((∃ r, set_week_target 2 [(1 : ℚ)/2, 1/2] none 201805 = .ok r) ↔
        1 ≤ (201805 : ℤ) % 100 ∧ (201805 : ℤ) % 100 < 53) :=
  ⟨⟨by omega,
      (week_point_modulo.1 2 [(1 : ℚ)/2, 1/2] none 201805 ([(1 : ℚ)/2, 1/2], 5)
        (by norm_num [set_week_target, approx_one])).2⟩,
    week_point_modulo.2.1 2 [(1 : ℚ)/2, 1/2] none 201853 (by decide),
    week_point_modulo.2.2 2 [(1 : ℚ)/2, 1/2] none 201805 (by norm_num)
      (by norm_num [approx_one]) (by norm_num) (by norm_num) (by norm_num)⟩

/-- C3: `Hybrid._forecast` overwrites its `epiweek` argument with the
constant `201841` before computing the splice index, so its result never
depends on the issue epiweek passed as argument; splicing the past curve
`[1,1,1,1,1,1]` with the future curve `[9,9,9,9,9,9]` for issue epiweek
`201845` in season 2018 therefore cuts at index 1 (the hard-coded week),
producing `[1,9,9,9,9,9]` instead of the `[1,1,1,1,1,9]` that the splice
index 5 of the passed epiweek would give; the splice expression itself does
combine prefix and suffix as specified (cutting `[1,1,1]` and
`[9,9,9,9,9,9]` at boundary 3 yields `[1,1,1,9,9,9]`). -/
theorem hybrid_splice_hardcoded_epiweek :
    (∀ (delta : ℤ → ℤ → ℤ) (s : ℤ) (P F : List (List ℚ)) (ew : ℤ),
        hybrid_forecast delta s P F ew = hybrid_forecast delta s P F 201841)
    ∧ hybrid_forecast delta_epiweeks_same_year 2018 [[1, 1, 1, 1, 1, 1]]
        [[9, 9, 9, 9, 9, 9]] 201845 = [[1, 9, 9, 9, 9, 9]]
    ∧ [[(1 : ℚ), 9, 9, 9, 9, 9]] ≠ [[(1 : ℚ), 1, 1, 1, 1, 9]]
    ∧ [(1 : ℚ), 1, 1].take 3 ++ [(9 : ℚ), 9, 9, 9, 9, 9].drop 3
        = [1, 1, 1, 9, 9, 9] := by
  refine ⟨fun _ _ _ _ _ => rfl, ?_, ?_, rfl⟩
  · norm_num [hybrid_forecast, delta_epiweeks_same_year, join_epiweek,
      List.range_succ]
  · simp only [ne_eq, List.cons.injEq, and_true]
    norm_num

theorem hybrid_splice_hardcoded_epiweek_witness :
    hybrid_forecast (fun a b => b - a) 0 [] [] 5
      = hybrid_forecast (fun a b => b - a) 0 [] [] 201841 :=
  hybrid_splice_hardcoded_epiweek.1 (fun a b => b - a) 0 [] [] 5

theorem foldl_max_replicate_zero (n : ℕ) (a : ℚ) (h : 0 ≤ a) :
    (List.replicate n (0 : ℚ)).foldl max a = a := by
  induction n with
  | zero => rfl
  | succ n ih => rw [List.replicate_succ, List.foldl_cons, max_eq_left h]; exact ih

theorem get_peak_replicate_append (n : ℕ) (c : ℚ) (hc : 0 ≤ c) :
    get_peak (List.replicate n (0 : ℚ) ++ [c]) = some c := by
  cases n with
  | zero => simp [get_peak, List.max?_cons']
  | succ n =>
    rw [get_peak, List.replicate_succ, List.cons_append, List.max?_cons',
      List.foldl_append, foldl_max_replicate_zero n 0 le_rfl]
    simp [max_eq_right hc]

/-- C7 counterexample: two trajectories that agree on their first 26 entries
but give different results for `fc_abstract.py`'s `Targets.get_peak`, which
is the maximum of the whole trajectory (no 26-week cutoff). -/
theorem peak_restricted_window_counterexample :
    (List.replicate 26 (0 : ℚ) ++ [7]).take 26
      = (List.replicate 26 (0 : ℚ) ++ [0]).take 26
    ∧ get_peak (List.replicate 26 (0 : ℚ) ++ [7])
        ≠ get_peak (List.replicate 26 (0 : ℚ) ++ [0]) := by
  constructor
  · rw [List.take_left' (by simp), List.take_left' (by simp)]
  · rw [get_peak_replicate_append 26 7 (by norm_num),
      get_peak_replicate_append 26 0 le_rfl]
    simp

/-- C7 (amended): the covid-era `Targets.get_peak_wili` is the maximum over
only the first 26 weeks — it is insensitive to every entry from index 26 on —
while `fc_abstract.py`'s `Targets.get_peak` is the maximum of the entire
trajectory. -/
theorem peak_restricted_window :
    (∀ s t : List ℚ, s.take 26 = t.take 26 → get_peak_wili s = get_peak_wili t)
    ∧ (∀ (s : List ℚ) (m : ℚ), get_peak s = some m → m ∈ s ∧ ∀ x ∈ s, x ≤ m)
    ∧ (∀ (s : List ℚ) (m : ℚ), get_peak_wili s = some m →
        m ∈ s.take 26 ∧ ∀ x ∈ s.take 26, x ≤ m) := by
  haveI : Std.Antisymm (fun (a b : ℚ) => a ≤ b) := ⟨fun h h' => le_antisymm h h'⟩
  have hmax : ∀ (l : List ℚ) (m : ℚ), l.max? = some m → m ∈ l ∧ ∀ x ∈ l, x ≤ m := by
    intro l m h
    exact (List.max?_eq_some_iff (fun a => le_refl a) (fun a b => max_choice a b)
      (fun a b c => max_le_iff)).mp h
  refine ⟨?_, ?_, ?_⟩
  · intro s t h
    rw [get_peak_wili, get_peak_wili, h]
  · intro s m h
    exact hmax s m h
  · intro s m h
    exact hmax (s.take 26) m h

theorem peak_restricted_window_witness :
    (get_peak_wili [(5 : ℚ)] = get_peak_wili [(5 : ℚ)])
    ∧ ((5 : ℚ) ∈ [(5 : ℚ)] ∧ ∀ x ∈ [(5 : ℚ)], x ≤ 5)
    ∧ ((5 : ℚ) ∈ [(5 : ℚ)].take 26 ∧ ∀ x ∈ [(5 : ℚ)].take 26, x ≤ 5) :=
  ⟨peak_restricted_window.1 [(5 : ℚ)] [(5 : ℚ)] rfl,
    peak_restricted_window.2.1 [(5 : ℚ)] 5 (by simp [get_peak, List.max?_cons']),
    peak_restricted_window.2.2 [(5 : ℚ)] 5 (by simp [get_peak_wili, List.max?_cons'])⟩

/-- C8 counterexample: with a single user the degrees of freedom used by
`fit_distribution` are `max(1, 1 - 1) = 1`, not `num_users - 1 = 0`. -/
theorem fit_distribution_parameters_counterexample : fit_df 1 ≠ (1 : ℤ) - 1 := by
  decide

/-- C8 (amended): `Epicast.fit_distribution` fits a Student-t with
`df = max(1, num_users - 1)` (equal to `num_users - 1` only from two users
up), location the median of the non-`None` values (`[0]` substituted when
none remain), scale the sample standard deviation floored at `1e-3`, and it
normalizes the bin vector to sum to 1 whenever the raw bin mass is
positive. -/
theorem fit_distribution_parameters :
    (∀ n : ℤ, 2 ≤ n → fit_df n = n - 1)
    ∧ (∀ n : ℤ, 1 ≤ fit_df n)
    ∧ (∀ values : List (Option ℚ), (1/1000 : ℝ) ≤ fit_sigma values)
    ∧ (∀ values : List (Option ℚ), values.filterMap id ≠ [] →
        fit_mu values = np_median (values.filterMap id))
    ∧ (∀ dist : List ℝ, 0 < dist.sum → (fit_normalize dist).sum = 1)
    ∧ (∀ (tcdf : ℤ → ℚ → ℝ → ℝ → ℝ) (values : List (Option ℚ)) (numBins : ℕ)
        (binSize firstValue : ℝ) (unbounded : Bool) (numUsers : ℤ),
        fit_distribution tcdf values numBins binSize firstValue unbounded numUsers
          = fit_normalize (fit_bins (tcdf (fit_df numUsers) (fit_mu values)
              (fit_sigma values)) numBins binSize firstValue unbounded)) := by
  refine ⟨?_, ?_, ?_, ?_, ?_, ?_⟩
  · intro n hn
    rw [fit_df, max_eq_right (by omega)]
  · intro n
    exact le_max_left 1 (n - 1)
  · intro values
    exact le_max_right _ _
  · intro values h
    rw [fit_mu, fit_values]
    simp [h]
  · intro dist hpos
    rw [fit_normalize, if_pos hpos]
    have h := List.sum_map_mul_left dist id (dist.sum)⁻¹
    simp only [List.map_id] at h
    calc (dist.map (fun x => x / dist.sum)).sum
        = (dist.map (fun x => (dist.sum)⁻¹ * x)).sum := by
          congr 1
          exact List.map_congr_left (fun x _ => by rw [div_eq_inv_mul])
      _ = (dist.sum)⁻¹ * dist.sum := by simpa using h
      _ = 1 := inv_mul_cancel₀ (ne_of_gt hpos)
  · intro tcdf values numBins binSize firstValue unbounded numUsers
    rfl

theorem fit_distribution_parameters_witness :
    (fit_df 5 = 5 - 1)
    ∧ (1 ≤ fit_df 0)
    ∧ ((1/1000 : ℝ) ≤ fit_sigma [])
    ∧ (fit_mu [some 2] = np_median ([some (2 : ℚ)].filterMap id))
    ∧ ((fit_normalize [(2 : ℝ)]).sum = 1)
    ∧ (fit_distribution (fun _ _ _ _ => 0) [] 0 0 0 false 0
        = fit_normalize (fit_bins ((fun (_ : ℤ) (_ : ℚ) (_ : ℝ) (_ : ℝ) => (0 : ℝ))
            (fit_df 0) (fit_mu []) (fit_sigma [])) 0 0 0 false)) :=
  ⟨fit_distribution_parameters.1 5 (by omega),
    fit_distribution_parameters.2.1 0,
    fit_distribution_parameters.2.2.1 [],
    fit_distribution_parameters.2.2.2.1 [some 2] (by simp),
    fit_distribution_parameters.2.2.2.2.1 [(2 : ℝ)] (by norm_num),
    fit_distribution_parameters.2.2.2.2.2 (fun _ _ _ _ => 0) [] 0 0 0 false 0⟩

theorem foldl_min_lt_iff (c : ℚ) :
    ∀ (xs : List ℚ) (x : ℚ), c < xs.foldl min x ↔ c < x ∧ ∀ y ∈ xs, c < y := by
  intro xs
  induction xs with
  | nil => intro x; simp
  | cons y ys ih =>
    intro x
    rw [List.foldl_cons, ih]
    constructor
    · rintro ⟨h1, h2⟩
      rw [lt_min_iff] at h1
      refine ⟨h1.1, fun z hz => ?_⟩
      rcases List.mem_cons.mp hz with rfl | hz'
      · exact h1.2
      · exact h2 z hz'
    · rintro ⟨h1, h2⟩
      exact ⟨lt_min_iff.mpr ⟨h1, h2 y (List.mem_cons_self y ys)⟩,
        fun z hz => h2 z (List.mem_cons_of_mem y hz)⟩

theorem foldl_max_lt_iff (c : ℚ) :
    ∀ (xs : List ℚ) (x : ℚ), xs.foldl max x < c ↔ x < c ∧ ∀ y ∈ xs, y < c := by
  intro xs
  induction xs with
  | nil => intro x; simp
  | cons y ys ih =>
    intro x
    rw [List.foldl_cons, ih]
    constructor
    · rintro ⟨h1, h2⟩
      rw [max_lt_iff] at h1
      refine ⟨h1.1, fun z hz => ?_⟩
      rcases List.mem_cons.mp hz with rfl | hz'
      · exact h1.2
      · exact h2 z hz'
    · rintro ⟨h1, h2⟩
      exact ⟨max_lt_iff.mpr ⟨h1, h2 y (List.mem_cons_self y ys)⟩,
        fun z hz => h2 z (List.mem_cons_of_mem y hz)⟩

theorem dist_ok_iff (d : List ℚ) : dist_ok d = true ↔ ¬ dist_violation d := by
  cases d with
  | nil =>
    rw [dist_ok, dist_violation]
    constructor
    · intro h
      exact absurd h (by norm_num [approx_one, List.min?])
    · intro h
      exact absurd (Or.inl (by norm_num)) h
  | cons x xs =>
    rw [dist_ok, dist_violation, List.min?_cons', List.max?_cons']
    simp only [Bool.and_eq_true, decide_eq_true_eq, approx_one,
      decide_eq_true_eq]
    rw [foldl_min_lt_iff, foldl_max_lt_iff]
    push_neg
    constructor
    · rintro ⟨h1, ⟨h2a, h2b⟩, h3a, h3b⟩
      refine ⟨by linarith [h1], ?_⟩
      intro y hy
      rcases List.mem_cons.mp hy with rfl | hy'
      · exact ⟨h2a, h3a⟩
      · exact ⟨h2b y hy', h3b y hy'⟩
    · rintro ⟨h1, h2⟩
      have hx := h2 x (List.mem_cons_self x xs)
      refine ⟨by linarith [h1], ⟨hx.1, ?_⟩, hx.2, ?_⟩
      · intro y hy; exact (h2 y (List.mem_cons_of_mem x hy)).1
      · intro y hy; exact (h2 y (List.mem_cons_of_mem x hy)).2

/-- C1: `Forecast.sanity_check` raises exactly when some location has a
checked distribution (x1..x4, peakweek, peak, and for regions the onset
array with the none probability appended) whose sum differs from 1 by at
least `1e-5` or which contains an entry `<= 0` or `>= 1`; a hand-built
forecast with one bin exactly 0 is rejected and one with every bin in
`(0, 1)` summing to 1 is accepted. -/
theorem sanity_check_raises_iff :
    (∀ fls : List ForecastLocationData,
        forecast_sanity_check fls = false ↔
          ∃ fl ∈ fls, ∃ d ∈ checked_dists fl, dist_violation d)
    ∧ forecast_sanity_check [bad_location] = false
    ∧ forecast_sanity_check [good_location] = true := by
  refine ⟨?_, ?_, ?_⟩
  · intro fls
    rw [show (forecast_sanity_check fls = false) ↔
        ¬ (forecast_sanity_check fls = true) by simp]
    rw [forecast_sanity_check, List.all_eq_true]
    simp only [location_sanity_check, List.all_eq_true, dist_ok_iff]
    push_neg
    simp only [not_not]
  · norm_num [forecast_sanity_check, location_sanity_check, checked_dists,
      dist_ok, approx_one, bad_location, good_location, List.min?_cons',
      List.max?_cons']
  · norm_num [forecast_sanity_check, location_sanity_check, checked_dists,
      dist_ok, approx_one, good_location, List.min?_cons', List.max?_cons']

theorem sanity_check_raises_iff_witness :
    forecast_sanity_check [good_location] = false ↔
      ∃ fl ∈ [good_location], ∃ d ∈ checked_dists fl, dist_violation d :=
  sanity_check_raises_iff.1 [good_location]

theorem find_range_some (p : ℕ → Bool) (n m : ℕ) (hm : m < n) (hp : p m = true)
    (hmin : ∀ k, k < m → p k = false) : (List.range n).find? p = some m := by
  rw [List.find?_eq_some_iff_getElem]
  refine ⟨hp, m, by simpa using hm, by simp, ?_⟩
  intro j hj
  simp only [List.getElem_range]
  simp [hmin j hj]

theorem get_onset_loop_spec (wili : List ℚ) (b : ℚ) :
    ∀ (l : List ℚ) (i c : ℕ),
      wili.drop i = l → c ≤ 2 → c ≤ i →
      (∀ k, i - c ≤ k → k < i → b ≤ round1 (wili.getD k 0)) →
      (∀ s, s + 2 < i → ¬ onset_window wili b s) →
      (c < i → ¬ b ≤ round1 (wili.getD (i - c - 1) 0)) →
      get_onset_loop b l i c =
        (List.range wili.length).find? (fun s => decide (onset_window wili b s)) := by
  intro l
  induction l with
  | nil =>
    intro i c hdrop _ _ _ hno _
    rw [get_onset_loop]
    symm
    rw [List.find?_eq_none]
    intro s hs
    simp only [List.mem_range] at hs
    simp only [decide_eq_true_eq]
    intro hw
    obtain ⟨hw1, hw2⟩ := hw
    have hlen : wili.length ≤ i := by
      by_contra hcon
      have : wili.drop i ≠ [] := by
        intro he
        have := List.drop_eq_nil_iff.mp he
        omega
      exact this hdrop
    exact hno s (by omega : s + 2 < i) ⟨hw1, hw2⟩
  | cons w rest ih =>
    intro i c hdrop hc2 hci hrun hno hbreak
    have hi : i < wili.length := by
      by_contra hcon
      have : wili.drop i = [] := List.drop_eq_nil_of_le (by omega)
      rw [this] at hdrop
      exact absurd hdrop (by simp)
    have hgw : wili.getD i 0 = w := by
      have h0 : (wili.drop i)[0]? = some w := by rw [hdrop]; simp
      rw [List.getElem?_drop] at h0
      simp only [Nat.add_zero] at h0
      rw [List.getD_eq_getElem?_getD, h0]
      rfl
    have hrest : wili.drop (i + 1) = rest := by
      have htail : (wili.drop i).tail = rest := by rw [hdrop]; rfl
      rw [← htail, List.tail_drop]
    rw [get_onset_loop]
    by_cases hw : b ≤ round1 w
    · rw [if_pos hw]
      by_cases h3 : 3 ≤ c + 1
      · rw [if_pos h3]
        have hc : c = 2 := by omega
        subst hc
        symm
        apply find_range_some
        · omega
        · apply decide_eq_true
          constructor
          · omega
          · intro k hk
            rcases (by omega : k = 0 ∨ k = 1 ∨ k = 2) with rfl | rfl | rfl
            · exact hrun (i - 2 + 0) (by omega) (by omega)
            · exact hrun (i - 2 + 1) (by omega) (by omega)
            · rw [show i - 2 + 2 = i by omega, hgw]
              exact hw
        · intro k hk
          apply decide_eq_false
          exact hno k (by omega)
      · rw [if_neg h3]
        apply ih (i + 1) (c + 1) hrest (by omega) (by omega)
        · intro k h1 h2
          by_cases hk : k = i
          · rw [hk, hgw]; exact hw
          · exact hrun k (by omega) (by omega)
        · intro s hs
          rcases (by omega : s + 2 < i ∨ s + 2 = i) with h | h
          · exact hno s h
          · rintro ⟨hslen, hsval⟩
            have hc1 : c ≤ 1 := by omega
            rcases (by omega : c = 0 ∨ c = 1) with rfl | rfl
            · have hb := hbreak (by omega)
              have hv := hsval 1 (by omega)
              rw [show s + 1 = i - 0 - 1 by omega] at hv
              exact hb hv
            · have hb := hbreak (by omega)
              have hv := hsval 0 (by omega)
              rw [show s + 0 = i - 1 - 1 by omega] at hv
              exact hb hv
        · intro h
          rw [show (i + 1) - (c + 1) - 1 = i - c - 1 by omega]
          exact hbreak (by omega)
    · rw [if_neg hw]
      apply ih (i + 1) 0 hrest (by omega) (by omega)
      · intro k h1 h2
        exact absurd h2 (by omega)
      · intro s hs
        rcases (by omega : s + 2 < i ∨ s + 2 = i) with h | h
        · exact hno s h
        · rintro ⟨hslen, hsval⟩
          have hv := hsval 2 (by omega)
          rw [h, hgw] at hv
          exact hw hv
      · intro _
        rw [show (i + 1) - 0 - 1 = i by omega, hgw]
        exact hw

theorem get_onset_eq_find (wili : List ℚ) (b : ℚ) :
    get_onset wili (some b) =
      (List.range wili.length).find? (fun s => decide (onset_window wili b s)) := by
  rw [show get_onset wili (some b) = get_onset_loop b wili 0 0 from rfl]
  apply get_onset_loop_spec wili b wili 0 0 rfl (by omega) (by omega)
  · intro k h1 h2; omega
  · intro s hs; omega
  · intro h; omega

/-- C6: `Targets.get_onset` returns the smallest index `s` such that the
values at `s`, `s+1`, `s+2`, each rounded to one decimal place, are all at or
above the baseline (the start of the qualifying window), and `None` when no
such window exists; on `[0,0,0,5,5,5,0]` with baseline `4.9` the onset is
index 3. -/
theorem onset_first_sustained_window :
    (∀ (wili : List ℚ) (b : ℚ) (s : ℕ),
        get_onset wili (some b) = some s ↔
          onset_window wili b s ∧ ∀ t, t < s → ¬ onset_window wili b t)
    ∧ (∀ (wili : List ℚ) (b : ℚ),
        get_onset wili (some b) = none ↔ ∀ s, ¬ onset_window wili b s)
    ∧ get_onset [0, 0, 0, 5, 5, 5, 0] (some (49/10)) = some 3 := by
  refine ⟨?_, ?_, ?_⟩
  · intro wili b s
    rw [get_onset_eq_find]
    constructor
    · intro h
      obtain ⟨hp, i, hi, hgi, hmin⟩ := List.find?_eq_some_iff_getElem.mp h
      simp only [List.getElem_range] at hgi
      subst hgi
      refine ⟨of_decide_eq_true hp, ?_⟩
      intro t ht
      have := hmin t ht
      simp only [List.getElem_range, Bool.not_eq_eq_eq_not, Bool.not_true] at this
      exact of_decide_eq_false this
    · rintro ⟨hw, hmin⟩
      apply find_range_some
      · have := hw.1; omega
      · exact decide_eq_true hw
      · intro k hk
        exact decide_eq_false (hmin k hk)
  · intro wili b
    rw [get_onset_eq_find]
    constructor
    · intro h s
      intro hw
      have hs : s ∈ List.range wili.length := by
        simp only [List.mem_range]
        have := hw.1; omega
      have := List.find?_eq_none.mp h s hs
      exact this (decide_eq_true hw)
    · intro h
      rw [List.find?_eq_none]
      intro s _
      simp only [decide_eq_true_eq]
      exact h s
  · norm_num [get_onset, get_onset_loop, round1, py_round_int]

theorem onset_first_sustained_window_witness :
    get_onset [(5 : ℚ), 5, 5] (some 1) = some 0 :=
  (onset_first_sustained_window.1 [(5 : ℚ), 5, 5] 1 0).mpr
    ⟨by
      unfold onset_window
      refine ⟨by norm_num, ?_⟩
      intro k hk
      interval_cases k <;> norm_num [round1, py_round_int],
      fun t ht => absurd ht (by omega)⟩

theorem matching_weeks_from_eq (pk : ℚ) :
    ∀ (l : List ℚ) (i : ℕ),
      matching_weeks_from pk l i =
        ((List.range l.length).filter
          (fun j => decide (round1 (l.getD j 0) = pk))).map (fun j => j + i) := by
  intro l
  induction l with
  | nil => intro i; simp [matching_weeks_from]
  | cons x xs ih =>
    intro i
    rw [matching_weeks_from, ih (i + 1)]
    rw [List.length_cons, List.range_succ_eq_map, List.filter_cons]
    rw [List.filter_map]
    have hfil : List.filter
          ((fun j => decide (round1 ((x :: xs).getD j 0) = pk)) ∘ Nat.succ)
          (List.range xs.length)
        = List.filter (fun j => decide (round1 (xs.getD j 0) = pk))
            (List.range xs.length) :=
      List.filter_congr (fun a _ => by simp [List.getD_cons_succ])
    rw [hfil]
    by_cases hq : round1 x = pk
    · rw [if_pos hq,
        if_pos (show decide (round1 ((x :: xs).getD 0 0) = pk) = true from
          decide_eq_true hq)]
      rw [List.map_cons, List.map_map, List.singleton_append]
      congr 1
      · simp
      · apply List.map_congr_left
        intro a _
        simp only [Function.comp_apply, Nat.succ_eq_add_one]
        omega
    · rw [if_neg hq,
        if_neg (show ¬ decide (round1 ((x :: xs).getD 0 0) = pk) = true from
          by simpa using hq)]
      rw [List.nil_append, List.map_map]
      apply List.map_congr_left
      intro a _
      simp only [Function.comp_apply, Nat.succ_eq_add_one]
      omega

theorem median_low_isSome {α : Type} [LinearOrder α] (l : List α) (h : l ≠ []) :
    (median_low l).isSome = true := by
  rw [median_low]
  have hlen : (l.insertionSort (· ≤ ·)).length = l.length :=
    List.length_insertionSort (· ≤ ·) l
  have hpos : 0 < l.length := List.length_pos.mpr h
  have hlt : (l.length - 1) / 2 < (l.insertionSort (· ≤ ·)).length := by
    rw [hlen]; omega
  simp [List.getElem?_eq_getElem hlt]

theorem onset_some_ne_nil (wili : List ℚ) (baseline : Option ℚ) (s : ℕ)
    (h : get_onset wili baseline = some s) : wili ≠ [] := by
  intro he
  subst he
  cases baseline with
  | none => simp [get_onset] at h
  | some b => simp [get_onset, get_onset_loop] at h

theorem get_peakweek_core (wili : List ℚ) (baseline : Option ℚ)
    (ruleSeason : Option ℤ) (hne : wili ≠ [])
    (hguard : (match ruleSeason with
      | some r => decide (r < 2016) && (get_onset wili baseline).isNone
      | none => false) = false) :
    ∃ m, get_peak wili = some m ∧
      get_peakweek wili baseline ruleSeason
        = median_low (peak_index_set wili (round1 m)) ∧
      (get_peakweek wili baseline ruleSeason).isSome = true := by
  obtain ⟨m, hm⟩ : ∃ m, get_peak wili = some m := by
    cases hmax : wili.max? with
    | none => exact absurd (List.max?_eq_none_iff.mp hmax) hne
    | some m => exact ⟨m, hmax⟩
  have heval : get_peakweek wili baseline ruleSeason
      = median_low (matching_weeks_from (round1 m) wili 0) := by
    rw [get_peakweek.eq_def, if_neg (by simp [hguard]), hm]
  have hset : matching_weeks_from (round1 m) wili 0
      = peak_index_set wili (round1 m) := by
    rw [matching_weeks_from_eq, peak_index_set]
    rw [show (fun (j : ℕ) => j + 0) = id from funext fun _ => rfl, List.map_id]
  have hmem : m ∈ wili := List.max?_mem (fun a b => max_choice a b) hm
  obtain ⟨idx, hidx, hval⟩ := List.getElem_of_mem hmem
  have hin : idx ∈ peak_index_set wili (round1 m) := by
    rw [peak_index_set, List.mem_filter]
    refine ⟨List.mem_range.mpr hidx, ?_⟩
    apply decide_eq_true
    rw [List.getD_eq_getElem _ _ hidx, hval]
  have hnonempty : peak_index_set wili (round1 m) ≠ [] :=
    List.ne_nil_of_mem hin
  refine ⟨m, hm, by rw [heval, hset], ?_⟩
  rw [heval, hset]
  exact median_low_isSome _ hnonempty

/-- C5: `Targets.get_peakweek` returns the median-low of the set of indices
whose 1-decimal-rounded value equals the rounded peak; for rule seasons
before 2016 it is `None` exactly when the onset is `None`, and otherwise it
is always defined on a non-empty trajectory; on `[1,3,3,2]` the peak value 3
is achieved at indices 1 and 2 and median-low picks index 1. -/
theorem peakweek_median_low_rule :
    (∀ (wili : List ℚ) (baseline : Option ℚ) (ruleSeason : Option ℤ),
        wili ≠ [] →
        (match ruleSeason with
         | some r => ¬ (r < 2016 ∧ get_onset wili baseline = none)
         | none => True) →
        ∃ m, get_peak wili = some m ∧
          get_peakweek wili baseline ruleSeason
            = median_low (peak_index_set wili (round1 m)) ∧
          (get_peakweek wili baseline ruleSeason).isSome = true)
    ∧ (∀ (wili : List ℚ) (baseline : Option ℚ) (r : ℤ), r < 2016 →
        (get_peakweek wili baseline (some r) = none ↔
          get_onset wili baseline = none))
    ∧ get_peakweek [1, 3, 3, 2] none none = some 1 := by
  refine ⟨?_, ?_, ?_⟩
  · intro wili baseline ruleSeason hne hrule
    apply get_peakweek_core wili baseline ruleSeason hne
    cases ruleSeason with
    | none => rfl
    | some r =>
      simp only at hrule
      by_cases hr : r < 2016
      · cases ho : get_onset wili baseline with
        | none => exact absurd ⟨hr, ho⟩ hrule
        | some s => simp [ho]
      · simp [hr]
  · intro wili baseline r hr
    constructor
    · intro h
      by_contra honset
      obtain ⟨s, hs⟩ : ∃ s, get_onset wili baseline = some s := by
        cases ho : get_onset wili baseline with
        | none => exact absurd ho honset
        | some s => exact ⟨s, rfl⟩
      have hne := onset_some_ne_nil wili baseline s hs
      obtain ⟨m, _, _, hsome⟩ :=
        get_peakweek_core wili baseline (some r) hne (by simp [hs])
      rw [h] at hsome
      simp at hsome
    · intro h
      rw [get_peakweek.eq_def, if_pos (by simp [h, hr])]
  · norm_num [get_peakweek, get_peak, median_low, matching_weeks_from, round1,
      py_round_int, List.max?, List.insertionSort, List.orderedInsert]

theorem peakweek_median_low_rule_witness :
    ∃ m, get_peak [(1 : ℚ), 3, 3, 2] = some m ∧
      get_peakweek [(1 : ℚ), 3, 3, 2] none none
        = median_low (peak_index_set [(1 : ℚ), 3, 3, 2] (round1 m)) ∧
      (get_peakweek [(1 : ℚ), 3, 3, 2] none none).isSome = true :=
  peakweek_median_low_rule.1 [(1 : ℚ), 3, 3, 2] none none (by simp) trivial

theorem add_padded_sum : ∀ xs ys : List ℚ,
    (add_padded xs ys).sum = xs.sum + ys.sum := by
  intro xs
  induction xs with
  | nil => intro ys; simp [add_padded]
  | cons x xs ih =>
    intro ys
    cases ys with
    | nil => simp [add_padded]
    | cons y ys =>
      rw [add_padded, List.sum_cons, ih, List.sum_cons, List.sum_cons]
      ring

theorem add_padded_length : ∀ xs ys : List ℚ,
    (add_padded xs ys).length = max xs.length ys.length := by
  intro xs
  induction xs with
  | nil => intro ys; simp [add_padded]
  | cons x xs ih =>
    intro ys
    cases ys with
    | nil => simp [add_padded]
    | cons y ys =>
      rw [add_padded, List.length_cons, ih, List.length_cons, List.length_cons]
      omega

theorem convolve_sum : ∀ xs ys : List ℚ,
    (convolve xs ys).sum = xs.sum * ys.sum := by
  intro xs
  induction xs with
  | nil => intro ys; simp [convolve]
  | cons x xs ih =>
    intro ys
    rw [convolve, add_padded_sum, List.sum_cons, ih, List.sum_cons]
    have h := List.sum_map_mul_left ys id x
    simp only [id_eq, List.map_id] at h
    rw [h]
    ring

theorem convolve_length : ∀ xs ys : List ℚ, xs ≠ [] → ys ≠ [] →
    (convolve xs ys).length = xs.length + ys.length - 1 := by
  intro xs
  induction xs with
  | nil => intro ys h; exact absurd rfl h
  | cons x xs ih =>
    intro ys _ hy
    rw [convolve, add_padded_length]
    have hylen : 0 < ys.length := List.length_pos.mpr hy
    by_cases hxs : xs = []
    · subst hxs
      simp only [convolve, List.length_cons, List.length_nil, List.length_map]
      omega
    · have hxlen : 0 < xs.length := List.length_pos.mpr hxs
      rw [List.length_cons, ih ys hxs hy, List.length_map, List.length_cons]
      omega

theorem sum_map_range_sub (g : ℕ → ℚ) :
    ∀ m : ℕ, ((List.range m).map (fun i => g (i + 1) - g i)).sum = g m - g 0 := by
  intro m
  induction m with
  | zero => simp
  | succ m ih =>
    rw [List.range_succ, List.map_append, List.sum_append, ih]
    simp only [List.map_cons, List.map_nil, List.sum_cons, List.sum_nil]
    ring

theorem kernel_sum (cdf : ℚ → ℚ) (num : ℕ) :
    (kernel cdf num).sum = cdf ((num : ℚ) + 1/2) - cdf (-(num : ℚ) - 1/2) := by
  rw [kernel]
  have hfun : (fun i : ℕ => kernel_probability cdf ((i : ℤ) - (num : ℤ)))
      = (fun i : ℕ => (fun j : ℕ => cdf ((j : ℚ) - (num : ℚ) - 1/2)) (i + 1)
          - (fun j : ℕ => cdf ((j : ℚ) - (num : ℚ) - 1/2)) i) := by
    funext i
    simp only [kernel_probability]
    congr 2 <;> push_cast <;> ring
  rw [hfun,
    sum_map_range_sub (fun j : ℕ => cdf ((j : ℚ) - (num : ℚ) - 1/2)) (2 * num + 1)]
  congr 2 <;> push_cast <;> ring

theorem kernel_length (cdf : ℚ → ℚ) (num : ℕ) :
    (kernel cdf num).length = 2 * num + 1 := by
  simp [kernel]

theorem smooth_core_length (t : List ℚ) (num : ℕ) (h : 2 * num + 1 ≤ t.length) :
    (smooth_core t num).length = t.length - 2 * num := by
  rw [smooth_core, fold_boundaries]
  simp only [List.length_take, List.length_drop, List.length_set]
  omega

theorem smooth_core_sum (t : List ℚ) (num : ℕ) (h : 2 * num + 1 ≤ t.length) :
    (smooth_core t num).sum = t.sum := by
  have hnumlt : num < t.length := by omega
  rw [smooth_core, fold_boundaries]
  have hd1 : (t.set num ((t.take (num + 1)).sum)).drop num
      = (t.take (num + 1)).sum :: t.drop (num + 1) := by
    rw [List.drop_set, if_neg (by omega), Nat.sub_self,
      List.drop_eq_getElem_cons hnumlt, List.set_cons_zero]
  by_cases hcase : t.length = 2 * num + 1
  · have hj : t.length - (num + 1) = num := by omega
    rw [hj]
    have hd2 : ((t.set num ((t.take (num + 1)).sum)).set num
          (((t.set num ((t.take (num + 1)).sum)).drop num).sum)).drop num
        = (((t.set num ((t.take (num + 1)).sum)).drop num).sum)
            :: t.drop (num + 1) := by
      rw [List.drop_set, if_neg (by omega), Nat.sub_self, hd1,
        List.set_cons_zero]
    rw [hd2, hd1]
    rw [show t.length - 2 * num = 0 + 1 by omega, List.take_succ_cons,
      List.take_zero]
    simp only [List.sum_cons, List.sum_nil]
    have hsplit : (t.take (num + 1)).sum + (t.drop (num + 1)).sum = t.sum :=
      List.sum_take_add_sum_drop t (num + 1)
    linarith
  · have hjgt : num < t.length - (num + 1) := by omega
    have hdj : (t.set num ((t.take (num + 1)).sum)).drop (t.length - (num + 1))
        = t.drop (t.length - (num + 1)) := by
      rw [List.drop_set, if_pos (by omega)]
    rw [hdj]
    have hd2 : ((t.set num ((t.take (num + 1)).sum)).set (t.length - (num + 1))
          ((t.drop (t.length - (num + 1))).sum)).drop num
        = ((t.set num ((t.take (num + 1)).sum)).drop num).set
            (t.length - (num + 1) - num) ((t.drop (t.length - (num + 1))).sum) := by
      rw [List.drop_set, if_neg (by omega)]
    rw [hd2, hd1]
    rw [show t.length - (num + 1) - num = (t.length - (num + 1) - num - 1) + 1
      by omega]
    rw [List.set_cons_succ]
    rw [show t.length - 2 * num = (t.length - 2 * num - 1) + 1 by omega,
      List.take_succ_cons, List.sum_cons]
    rw [show t.length - 2 * num - 1 = (t.length - (num + 1) - num - 1) + 1
      by omega]
    rw [List.set_take, List.sum_set]
    have hulen : (t.drop (num + 1)).length = t.length - (num + 1) := by simp
    have hklt : t.length - (num + 1) - num - 1
        < ((t.drop (num + 1)).take ((t.length - (num + 1) - num - 1) + 1)).length := by
      simp only [List.length_take, hulen]
      omega
    rw [if_pos hklt]
    rw [List.take_take, min_eq_left (by omega)]
    have hdropnil : ((t.drop (num + 1)).take
          ((t.length - (num + 1) - num - 1) + 1)).drop
          ((t.length - (num + 1) - num - 1) + 1) = [] := by
      apply List.drop_eq_nil_of_le
      simp only [List.length_take]
      omega
    rw [hdropnil, List.sum_nil]
    have hsplit1 : (t.take (num + 1)).sum + (t.drop (num + 1)).sum = t.sum :=
      List.sum_take_add_sum_drop t (num + 1)
    have hsplit2 : ((t.drop (num + 1)).take (t.length - (num + 1) - num - 1)).sum
        + ((t.drop (num + 1)).drop (t.length - (num + 1) - num - 1)).sum
        = (t.drop (num + 1)).sum :=
      List.sum_take_add_sum_drop (t.drop (num + 1)) (t.length - (num + 1) - num - 1)
    have hdd : (t.drop (num + 1)).drop (t.length - (num + 1) - num - 1)
        = t.drop (t.length - (num + 1)) := by
      rw [List.drop_drop]
      congr 1
      omega
    rw [hdd] at hsplit2
    linarith

theorem surrogate_cdf_bounds (x : ℚ) :
    0 < surrogate_cdf x ∧ surrogate_cdf x < 1 := by
  have hd : (0 : ℚ) < 2 * (1 + |x|) := by positivity
  have habs1 : -(1 + |x|) < x := by
    have := neg_abs_le x
    have := abs_nonneg x
    linarith
  have habs2 : x < 1 + |x| := by
    have := le_abs_self x
    linarith
  constructor
  · rw [surrogate_cdf]
    have hlow : -(1/2 : ℚ) < x / (2 * (1 + |x|)) := by
      rw [lt_div_iff₀ hd]
      nlinarith
    linarith
  · rw [surrogate_cdf]
    have hhigh : x / (2 * (1 + |x|)) < 1/2 := by
      rw [div_lt_iff₀ hd]
      nlinarith
    linarith

/-- C4 (amended): `smooth` preserves the length of the curve and its total
mass satisfies `sum(smooth) = sum(curve) * (cdf(num + 0.5) - cdf(-num - 0.5))`:
the boundary folding conserves the full convolution mass exactly, but the
kernel is truncated to offsets `-num..num`, so for any CDF with values
strictly inside `(0, 1)` (as the normal CDF has) the total kernel weight is
below 1 and a curve of positive mass strictly loses mass — the sum is only
approximately, not exactly, preserved. -/
theorem smooth_total_mass :
    ∀ (cdf : ℚ → ℚ) (num : ℕ) (curve : List ℚ), curve ≠ [] →
      (smooth cdf num curve).length = curve.length
      ∧ (smooth cdf num curve).sum
          = curve.sum * (cdf ((num : ℚ) + 1/2) - cdf (-(num : ℚ) - 1/2))
      ∧ ((∀ x : ℚ, 0 < cdf x ∧ cdf x < 1) → 0 < curve.sum →
          (smooth cdf num curve).sum < curve.sum) := by
  intro cdf num curve hne
  have hkne : kernel cdf num ≠ [] := by
    apply List.ne_nil_of_length_pos
    rw [kernel_length]
    omega
  have hclen : 0 < curve.length := List.length_pos.mpr hne
  have htlen : (convolve curve (kernel cdf num)).length = curve.length + 2 * num := by
    rw [convolve_length curve _ hne hkne, kernel_length]
    omega
  have hsum : (smooth cdf num curve).sum
      = curve.sum * (cdf ((num : ℚ) + 1/2) - cdf (-(num : ℚ) - 1/2)) := by
    rw [smooth,
      show smooth_core (convolve curve (kernel cdf num)) num
          = ((fold_boundaries (convolve curve (kernel cdf num)) num).drop num).take
              ((convolve curve (kernel cdf num)).length - 2 * num) from rfl]
    rw [← smooth_core]
    rw [smooth_core_sum _ _ (by omega), convolve_sum, kernel_sum]
  refine ⟨?_, hsum, ?_⟩
  · rw [smooth, smooth_core_length _ _ (by omega), htlen]
    omega
  · intro hcdf hpos
    rw [hsum]
    have h1 : cdf ((num : ℚ) + 1/2) < 1 := (hcdf _).2
    have h2 : 0 < cdf (-(num : ℚ) - 1/2) := (hcdf _).1
    nlinarith

theorem smooth_total_mass_witness :
    (smooth surrogate_cdf 1 [(1 : ℚ)]).length = [(1 : ℚ)].length
    ∧ (smooth surrogate_cdf 1 [(1 : ℚ)]).sum
        = [(1 : ℚ)].sum * (surrogate_cdf (((1 : ℕ) : ℚ) + 1/2)
            - surrogate_cdf (-((1 : ℕ) : ℚ) - 1/2))
    ∧ ((∀ x : ℚ, 0 < surrogate_cdf x ∧ surrogate_cdf x < 1) →
        0 < [(1 : ℚ)].sum →
        (smooth surrogate_cdf 1 [(1 : ℚ)]).sum < [(1 : ℚ)].sum) :=
  smooth_total_mass surrogate_cdf 1 [(1 : ℚ)] (by simp)

/-- C4 counterexample: smoothing the one-bin distribution `[1]` with the
truncated kernel of radius 1 built from a CDF whose values lie strictly in
`(0, 1)` gives total mass `3/5`, not 1: the sum is not preserved exactly. -/
theorem smooth_total_mass_counterexample :
    (∀ x : ℚ, 0 < surrogate_cdf x ∧ surrogate_cdf x < 1)
    ∧ (smooth surrogate_cdf 1 [(1 : ℚ)]).sum ≠ [(1 : ℚ)].sum := by
  constructor
  · exact surrogate_cdf_bounds
  · have h32 : |(3 : ℚ)/2| = 3/2 := by
      rw [abs_of_nonneg]
      norm_num
    have h12 : |(1 : ℚ)/2| = 1/2 := by
      rw [abs_of_nonneg]
      norm_num
    have heval : smooth surrogate_cdf 1 [(1 : ℚ)] = [3/5] := by
      norm_num [smooth, smooth_core, fold_boundaries, convolve, add_padded,
        kernel, kernel_probability, surrogate_cdf, List.range_succ, h32, h12]
    rw [heval]
    norm_num
